import Mathlib

/-!
Verification of the team balancer in `core.py`
(`balancear_equipos_greedy_swaps` and its helpers).

The embedding below mirrors the Python source.  Player records are
dictionaries whose `"Score"` entry may be absent, modelled by an
`Option ℚ` field read through `getScore` (the Python
`p.get("Score", 0.0)`).  The randomized swap phase is modelled by an
explicit oracle stream of choices; each Python run corresponds to one
oracle, and every oracle corresponds to a possible run.  Python
exceptions are modelled by `Except PyError`: dividing by a zero team
size raises `ZeroDivisionError`, and `random.sample(range(num), 2)`
raises `ValueError` whenever `num < 2`.
-/

/-- A player record.  Only the `"Score"` entry and the record identity
matter to the balancer; `score = none` models a dictionary without a
`"Score"` key. -/
structure Player where
  gamertag : String
  score : Option ℚ
deriving DecidableEq

/-- The Python read `p.get("Score", 0.0)`. -/
def getScore (p : Player) : ℚ := p.score.getD 0

/-- Descending-score comparison used by `sorted(..., key=Score, reverse=True)`:
`scoreGE a b` holds when `a`'s score is at least `b`'s. -/
def scoreGE (a b : Player) : Prop := getScore b ≤ getScore a

instance : DecidableRel scoreGE :=
  fun a b => inferInstanceAs (Decidable (getScore b ≤ getScore a))

instance : IsTotal Player scoreGE := ⟨fun a b => le_total (getScore b) (getScore a)⟩

instance : IsTrans Player scoreGE := ⟨fun _ _ _ hab hbc => le_trans hbc hab⟩

/-- The Python `sorted(lista_jugadores, key=lambda x: x.get("Score", 0.0), reverse=True)`:
a stable descending sort by score (insertion sort is extensionally the
unique stable sort for a total preorder, which is what CPython's stable
`sorted` computes). -/
def sortPlayers (l : List Player) : List Player := List.insertionSort scoreGE l

/-- One comparison step of Python's `min(xs, key=f)`: keep the current
best unless the next key is strictly smaller, so the first minimum wins. -/
def pickMin (f : ℕ → ℚ) (best y : ℕ) : ℕ := if f y < f best then y else best

/-- The Python `min(xs, key=f)`: first element attaining the minimal key,
`none` on an empty sequence (where Python raises `ValueError`). -/
def pyMin (f : ℕ → ℚ) : List ℕ → Option ℕ
  | [] => none
  | x :: xs => some (xs.foldl (pickMin f) x)

/-- State of the greedy seeding phase: the Python parallel lists
`equipos` and `equipos_sums`. -/
structure GreedyState where
  teams : List (List Player)
  sums : List ℚ
deriving DecidableEq

/-- The Python list comprehension
`[i for i in range(num_equipos) if len(equipos[i]) < n_jugadores]`. -/
def candidatosOf (n num : ℕ) (teams : List (List Player)) : List ℕ :=
  (List.range num).filter (fun i => decide ((teams.getD i []).length < n))

/-- One iteration of the Phase-1 greedy loop (lines 103-107 of `core.py`):
append `p` to the first team of minimal running sum among teams that are
not yet full, and add its score to that team's cached sum.  The `none`
branch is unreachable while assignable players remain (Python's `min`
would raise there on an empty candidate list). -/
def greedyStep (n num : ℕ) (st : GreedyState) (p : Player) : GreedyState :=
  match pyMin (fun i => st.sums.getD i 0) (candidatosOf n num st.teams) with
  | none => st
  | some idx =>
    { teams := st.teams.set idx (st.teams.getD idx [] ++ [p])
      sums := st.sums.set idx (st.sums.getD idx 0 + getScore p) }

/-- Phase 1 of `balancear_equipos_greedy_swaps` (lines 98-109): sort by
descending score, seed `num` teams greedily from the first `num * n`
players, and keep the remainder as reserves. -/
def faseGreedy (lista : List Player) (n : ℕ) : GreedyState × List Player :=
  let num := lista.length / n
  let ordenados := sortPlayers lista
  ((ordenados.take (num * n)).foldl (greedyStep n num)
      { teams := List.replicate num [], sums := List.replicate num 0 },
    ordenados.drop (num * n))

/-- Score sums of the teams, recomputed from the memberships (the
quantity the cached `equipos_sums` list is supposed to track). -/
def teamSums (ts : List (List Player)) : List ℚ :=
  ts.map (fun t => (t.map getScore).sum)

/-- The Python helper `variance_of_sums`: population variance
(`statistics.pvariance`), with the source's explicit `0.0` guard for an
empty list. -/
def pvariance (l : List ℚ) : ℚ :=
  if l.length = 0 then 0
  else ((l.map (fun x => (x - l.sum / l.length) ^ 2)).sum) / l.length

/-- Exceptions the Python function can raise. -/
inductive PyError where
  | zeroDivision
  | valueError
deriving DecidableEq

deriving instance DecidableEq for Except

/-- One random draw of the refinement loop: raw material for
`random.sample(range(num_equipos), 2)` (fields `ca`, `cb`) and the two
`random.randrange` calls (fields `cia`, `cib`). -/
structure Choice where
  ca : ℕ
  cb : ℕ
  cia : ℕ
  cib : ℕ

/-- Interpretation of a draw as `random.sample(range(num), 2)`: an
arbitrary ordered pair of distinct indices below `num` (meaningful only
when `2 ≤ num`; otherwise Python raises `ValueError` before this point). -/
def samplePair (num : ℕ) (c : Choice) : ℕ × ℕ :=
  let a := c.ca % num
  let b0 := c.cb % (num - 1)
  (a, if b0 < a then b0 else b0 + 1)

/-- State of the refinement phase: team memberships, the cached sums and
the best variance seen so far. -/
structure SwapState where
  teams : List (List Player)
  sums : List ℚ
  bestVar : ℚ
deriving DecidableEq

/-- One iteration of the Phase-2 loop body (lines 119-137 of `core.py`):
draw two distinct teams and one member of each, compute the two
hypothetical sums and the hypothetical variance, and commit the swap
exactly when that variance is strictly below the best seen so far. -/
def swapIter (num : ℕ) (st : SwapState) (c : Choice) : SwapState :=
  let a := (samplePair num c).1
  let b := (samplePair num c).2
  let ta := st.teams.getD a []
  let tb := st.teams.getD b []
  if ta.length = 0 ∨ tb.length = 0 then st
  else
    let ia := c.cia % ta.length
    let ib := c.cib % tb.length
    let pa := ta.getD ia ⟨"", none⟩
    let pb := tb.getD ib ⟨"", none⟩
    let sa := st.sums.getD a 0 - getScore pa + getScore pb
    let sb := st.sums.getD b 0 - getScore pb + getScore pa
    let newSums := (st.sums.set a sa).set b sb
    let newVar := pvariance newSums
    if newVar < st.bestVar then
      { teams := (st.teams.set a (ta.set ia pb)).set b (tb.set ib pa)
        sums := newSums
        bestVar := newVar }
    else st

/-- The Phase-2 loop `for _ in range(max_iters)` (line 118): each pending
iteration first calls `random.sample(range(num), 2)`, which raises
`ValueError` when `num < 2`; otherwise the body `swapIter` runs on the
next oracle draw. -/
def swapLoop (num : ℕ) : (ℕ → Choice) → ℕ → SwapState → Except PyError SwapState
  | _, 0, st => .ok st
  | oracle, m + 1, st =>
    if num < 2 then .error .valueError
    else swapLoop num (fun i => oracle (i + 1)) m (swapIter num st (oracle 0))

/-- The main path of `balancear_equipos_greedy_swaps` once `num_equipos`
is known to be positive (`n` is then a positive team size, taken as a
natural number). -/
def balancearPos (lista : List Player) (n maxIters : ℕ) (oracle : ℕ → Choice) :
    Except PyError (List (List Player) × List Player) :=
  let num := lista.length / n
  let gst := (faseGreedy lista n).1
  match swapLoop num oracle maxIters
      { teams := gst.teams, sums := gst.sums, bestVar := pvariance gst.sums } with
  | .error e => .error e
  | .ok st => .ok (st.teams, (faseGreedy lista n).2)

/-- The full `balancear_equipos_greedy_swaps(lista_jugadores, n_jugadores,
max_iters)`.  `num_equipos = total // n_jugadores` is Python floor
division, which raises `ZeroDivisionError` when `n_jugadores == 0`; when
`num_equipos <= 0` the function returns `([], list(lista_jugadores))`
(line 94-95). -/
def balancear (lista : List Player) (n : ℤ) (maxIters : ℕ) (oracle : ℕ → Choice) :
    Except PyError (List (List Player) × List Player) :=
  if n = 0 then .error .zeroDivision
  else if Int.fdiv lista.length n ≤ 0 then .ok ([], lista)
  else balancearPos lista n.toNat maxIters oracle

/-! ### List helper lemmas -/

lemma sum_map_set_rat {α : Type*} (f : α → ℚ) (l : List α) :
    ∀ (i : ℕ) (x : α) (h : i < l.length),
      ((l.set i x).map f).sum = (l.map f).sum - f l[i] + f x := by
  induction l with
  | nil => intro i x h; simp at h
  | cons a l ih =>
    intro i x h
    cases i with
    | zero => simp; ring
    | succ i =>
      have h' : i < l.length := by simpa using h
      simp only [List.set_cons_succ, List.map_cons, List.sum_cons,
        List.getElem_cons_succ, ih i x h']
      ring

lemma sum_map_set_nat {α : Type*} (f : α → ℕ) (l : List α) :
    ∀ (i : ℕ) (x : α) (h : i < l.length),
      ((l.set i x).map f).sum + f l[i] = (l.map f).sum + f x := by
  induction l with
  | nil => intro i x h; simp at h
  | cons a l ih =>
    intro i x h
    cases i with
    | zero => simp; omega
    | succ i =>
      have h' : i < l.length := by simpa using h
      have := ih i x h'
      simp only [List.set_cons_succ, List.map_cons, List.sum_cons,
        List.getElem_cons_succ]
      omega

lemma set_getElem_append_perm {α : Type*} (l : List α) :
    ∀ (i : ℕ) (x : α) (h : i < l.length), List.Perm (l.set i x ++ [l[i]]) (l ++ [x]) := by
  induction l with
  | nil => intro i x h; simp at h
  | cons a l ih =>
    intro i x h
    cases i with
    | zero =>
      simp only [List.set_cons_zero, List.getElem_cons_zero, List.cons_append]
      have h1 : List.Perm (x :: (l ++ [a])) (x :: (a :: l)) :=
        (List.perm_append_singleton a l).cons x
      have h2 : List.Perm (x :: (a :: l)) (a :: (x :: l)) := List.Perm.swap a x l
      have h3 : List.Perm (a :: (x :: l)) (a :: (l ++ [x])) :=
        ((List.perm_append_singleton x l).symm).cons a
      exact h1.trans (h2.trans h3)
    | succ i =>
      have h' : i < l.length := by simpa using h
      simp only [List.set_cons_succ, List.getElem_cons_succ, List.cons_append]
      exact (ih i x h').cons a

lemma flatten_set_append_perm {α : Type*} (l : List (List α)) :
    ∀ (i : ℕ) (x : List α) (h : i < l.length),
      List.Perm ((l.set i x).flatten ++ l[i]) (l.flatten ++ x) := by
  induction l with
  | nil => intro i x h; simp at h
  | cons a l ih =>
    intro i x h
    cases i with
    | zero =>
      simp only [List.set_cons_zero, List.getElem_cons_zero, List.flatten_cons]
      have h1 : List.Perm ((x ++ l.flatten) ++ a) (a ++ (x ++ l.flatten)) :=
        List.perm_append_comm
      have h2 : List.Perm (a ++ (x ++ l.flatten)) (a ++ (l.flatten ++ x)) :=
        List.Perm.append_left a List.perm_append_comm
      have h3 : a ++ (l.flatten ++ x) = (a ++ l.flatten) ++ x :=
        (List.append_assoc a l.flatten x).symm
      exact (h1.trans h2).trans (h3 ▸ List.Perm.refl _)
    | succ i =>
      have h' : i < l.length := by simpa using h
      simp only [List.set_cons_succ, List.getElem_cons_succ, List.flatten_cons,
        List.append_assoc]
      exact (ih i x h').append_left a

/-! ### Characterization of `pyMin` (Python `min` with a key) -/

lemma foldl_pickMin_split (f : ℕ → ℚ) :
    ∀ (xs : List ℕ) (a : ℕ),
      ∃ l1 l2, a :: xs = l1 ++ (xs.foldl (pickMin f) a) :: l2 ∧
        (∀ y ∈ l1, f (xs.foldl (pickMin f) a) < f y) ∧
        (∀ y ∈ l2, f (xs.foldl (pickMin f) a) ≤ f y) := by
  intro xs
  induction xs with
  | nil => intro a; exact ⟨[], [], rfl, by simp, by simp⟩
  | cons y ys ih =>
    intro a
    rw [List.foldl_cons]
    by_cases hy : f y < f a
    · rw [show pickMin f a y = y by simp [pickMin, hy]]
      obtain ⟨l1, l2, hsplit, h1, h2⟩ := ih y
      have hry : f (ys.foldl (pickMin f) y) ≤ f y := by
        cases l1 with
        | nil =>
          simp only [List.nil_append] at hsplit
          injection hsplit with e1 e2
          exact le_of_eq (congrArg f e1.symm)
        | cons c l1t =>
          simp only [List.cons_append] at hsplit
          injection hsplit with e1 e2
          exact le_of_lt (e1.symm ▸ h1 c (List.mem_cons_self c l1t))
      refine ⟨a :: l1, l2, ?_, ?_, h2⟩
      · rw [List.cons_append, ← hsplit]
      · intro z hz
        rcases List.mem_cons.mp hz with rfl | hz
        · exact lt_of_le_of_lt hry hy
        · exact h1 z hz
    · rw [show pickMin f a y = a by simp [pickMin, hy]]
      have hay : f a ≤ f y := le_of_not_lt hy
      obtain ⟨l1, l2, hsplit, h1, h2⟩ := ih a
      cases l1 with
      | nil =>
        simp only [List.nil_append] at hsplit
        injection hsplit with e1 e2
        refine ⟨[], y :: l2, ?_, by simp, ?_⟩
        · rw [List.nil_append, ← e1, e2]
        · intro z hz
          rcases List.mem_cons.mp hz with rfl | hz
          · exact le_trans (le_of_eq (congrArg f e1.symm)) hay
          · exact h2 z hz
      | cons c l1t =>
        simp only [List.cons_append] at hsplit
        injection hsplit with e1 e2
        have hra : f (ys.foldl (pickMin f) a) < f a :=
          e1.symm ▸ h1 c (List.mem_cons_self c l1t)
        refine ⟨a :: y :: l1t, l2, ?_, ?_, h2⟩
        · rw [List.cons_append, List.cons_append, ← e2]
        · intro z hz
          rcases List.mem_cons.mp hz with rfl | hz
          · exact hra
          · rcases List.mem_cons.mp hz with rfl | hz
            · exact lt_of_lt_of_le hra hay
            · exact h1 z (List.mem_cons_of_mem c hz)

lemma pyMin_isSome (f : ℕ → ℚ) (xs : List ℕ) (h : xs ≠ []) :
    ∃ r, pyMin f xs = some r := by
  rcases xs with _ | ⟨x, xs⟩
  · exact absurd rfl h
  · exact ⟨xs.foldl (pickMin f) x, rfl⟩

lemma pyMin_spec (f : ℕ → ℚ) (xs : List ℕ) (r : ℕ) (h : pyMin f xs = some r) :
    r ∈ xs ∧ (∀ y ∈ xs, f r ≤ f y) ∧
      (xs.Pairwise (· < ·) → ∀ y ∈ xs, f y ≤ f r → r ≤ y) := by
  rcases xs with _ | ⟨x, xs⟩
  · simp [pyMin] at h
  · have hr : r = xs.foldl (pickMin f) x := by simpa [pyMin] using h.symm
    obtain ⟨l1, l2, hsplit, h1, h2⟩ := foldl_pickMin_split f xs x
    rw [← hr] at hsplit h1 h2
    have hmem : r ∈ x :: xs := by
      rw [hsplit]
      exact List.mem_append_right l1 (List.mem_cons_self r l2)
    refine ⟨hmem, ?_, ?_⟩
    · intro y hy
      rw [hsplit] at hy
      rcases List.mem_append.mp hy with hy | hy
      · exact le_of_lt (h1 y hy)
      · rcases List.mem_cons.mp hy with rfl | hy
        · exact le_refl _
        · exact h2 y hy
    · intro hpair y hy hyr
      rw [hsplit] at hy hpair
      rcases List.mem_append.mp hy with hy | hy
      · exact absurd (h1 y hy) (not_lt.mpr hyr)
      · rcases List.mem_cons.mp hy with rfl | hy
        · exact le_refl _
        · have := (List.pairwise_append.mp hpair).2.1
          exact le_of_lt ((List.pairwise_cons.mp this).1 y hy)

/-! ### Properties of the stable descending sort -/

lemma sortPlayers_perm (l : List Player) : List.Perm (sortPlayers l) l :=
  List.perm_insertionSort scoreGE l

lemma sortPlayers_length (l : List Player) : (sortPlayers l).length = l.length :=
  (sortPlayers_perm l).length_eq

lemma sortPlayers_sorted (l : List Player) : List.Sorted scoreGE (sortPlayers l) :=
  List.sorted_insertionSort scoreGE l

lemma sortPlayers_filter_score (l : List Player) (q : ℚ) :
    (sortPlayers l).filter (fun p => decide (getScore p = q)) =
      l.filter (fun p => decide (getScore p = q)) := by
  have hpair : (l.filter (fun p => decide (getScore p = q))).Pairwise scoreGE := by
    refine List.pairwise_of_forall_mem_list ?_
    intro a ha b hb
    have ha2 : getScore a = q := by simpa using (List.mem_filter.mp ha).2
    have hb2 : getScore b = q := by simpa using (List.mem_filter.mp hb).2
    show getScore b ≤ getScore a
    rw [ha2, hb2]
  have hsub : List.Sublist (l.filter (fun p => decide (getScore p = q))) (sortPlayers l) :=
    List.sublist_insertionSort hpair (List.filter_sublist l)
  have hsub2 := hsub.filter (fun p => decide (getScore p = q))
  rw [List.filter_filter] at hsub2
  simp only [Bool.and_self] at hsub2
  have hlen : ((sortPlayers l).filter (fun p => decide (getScore p = q))).length =
      (l.filter (fun p => decide (getScore p = q))).length :=
    ((sortPlayers_perm l).filter _).length_eq
  exact (hsub2.eq_of_length hlen.symm).symm

/-! ### The candidate list of the greedy phase -/

lemma mem_candidatosOf {n num : ℕ} {ts : List (List Player)} {i : ℕ} :
    i ∈ candidatosOf n num ts ↔ i < num ∧ (ts.getD i []).length < n := by
  simp [candidatosOf, List.mem_filter, List.mem_range]

lemma candidatosOf_pairwise (n num : ℕ) (ts : List (List Player)) :
    (candidatosOf n num ts).Pairwise (· < ·) :=
  (List.pairwise_lt_range num).filter _

/-! ### Invariants of the greedy seeding phase -/

/-- Invariants maintained by the greedy loop: the two parallel lists have
`num` entries, no team exceeds `n` members, and the cached sums agree
with the memberships. -/
structure GreedyInv (n num : ℕ) (st : GreedyState) : Prop where
  tlen : st.teams.length = num
  slen : st.sums.length = num
  small : ∀ t ∈ st.teams, t.length ≤ n
  sums_eq : st.sums = teamSums st.teams

/-- Total number of already-assigned players. -/
def membersCount (st : GreedyState) : ℕ := (st.teams.map List.length).sum

lemma all_eq_of_sum_eq (n : ℕ) :
    ∀ l : List ℕ, (∀ x ∈ l, x ≤ n) → l.sum = l.length * n → ∀ x ∈ l, x = n := by
  intro l
  induction l with
  | nil => simp
  | cons a l ih =>
    intro hle hsum x hx
    have ha : a ≤ n := hle a (List.mem_cons_self a l)
    have hl : l.sum ≤ l.length * n := by
      have := List.sum_le_card_nsmul l n (fun x hx => hle x (List.mem_cons_of_mem a hx))
      simpa [smul_eq_mul] using this
    have hsum' : a + l.sum = l.length * n + n := by
      have : (l.length + 1) * n = l.length * n + n := by ring
      simpa [List.sum_cons, List.length_cons, this] using hsum
    have han : a = n := by omega
    rcases List.mem_cons.mp hx with rfl | hx
    · exact han
    · exact ih (fun y hy => hle y (List.mem_cons_of_mem a hy)) (by omega) x hx

lemma teamSums_length (ts : List (List Player)) : (teamSums ts).length = ts.length := by
  simp [teamSums]

lemma greedyStep_spec (n num : ℕ) (st : GreedyState) (p : Player)
    (hinv : GreedyInv n num st) (hroom : membersCount st < num * n) :
    GreedyInv n num (greedyStep n num st p) ∧
      membersCount (greedyStep n num st p) = membersCount st + 1 := by
  have hexists : ∃ t ∈ st.teams, t.length < n := by
    by_contra hcon
    push_neg at hcon
    have : st.teams.length * n ≤ membersCount st := by
      have h1 : ∀ x ∈ st.teams.map List.length, n ≤ x := by
        intro x hx
        obtain ⟨t, ht, rfl⟩ := List.mem_map.mp hx
        exact hcon t ht
      have := List.card_nsmul_le_sum (st.teams.map List.length) n h1
      simpa [membersCount, smul_eq_mul, mul_comm] using this
    rw [hinv.tlen] at this
    omega
  obtain ⟨t, htmem, htlen⟩ := hexists
  obtain ⟨i, hi, hti⟩ := List.mem_iff_getElem.mp htmem
  have hine : i ∈ candidatosOf n num st.teams := by
    refine mem_candidatosOf.mpr ⟨hinv.tlen ▸ hi, ?_⟩
    rw [List.getD_eq_getElem st.teams [] hi, hti]
    exact htlen
  have hne : candidatosOf n num st.teams ≠ [] := List.ne_nil_of_mem hine
  obtain ⟨idx, hmin⟩ := pyMin_isSome (fun i => st.sums.getD i 0) _ hne
  obtain ⟨hidxmem, hidxle, hidxfirst⟩ := pyMin_spec _ _ _ hmin
  obtain ⟨hidxnum, hidxroom⟩ := mem_candidatosOf.mp hidxmem
  have hidxlt : idx < st.teams.length := hinv.tlen ▸ hidxnum
  have hidxlt' : idx < st.sums.length := hinv.slen ▸ hidxnum
  have hstep : greedyStep n num st p =
      { teams := st.teams.set idx (st.teams.getD idx [] ++ [p])
        sums := st.sums.set idx (st.sums.getD idx 0 + getScore p) } := by
    unfold greedyStep
    rw [hmin]
  rw [hstep]
  have hgetT : st.teams.getD idx [] = st.teams[idx] :=
    List.getD_eq_getElem st.teams [] hidxlt
  refine ⟨⟨?_, ?_, ?_, ?_⟩, ?_⟩
  · simpa using hinv.tlen
  · simpa using hinv.slen
  · intro t' ht'
    rcases List.mem_or_eq_of_mem_set ht' with ht' | rfl
    · exact hinv.small t' ht'
    · rw [hgetT]
      have : st.teams[idx].length < n := by rw [← hgetT]; exact hidxroom
      simp only [List.length_append, List.length_cons, List.length_nil]
      omega
  · show _ = teamSums (st.teams.set idx _)
    rw [teamSums, List.map_set, ← teamSums]
    rw [hinv.sums_eq]
    rw [hgetT]
    have hgetS : (teamSums st.teams).getD idx 0 = (st.teams[idx].map getScore).sum := by
      rw [List.getD_eq_getElem (teamSums st.teams) 0 (by rw [teamSums_length]; exact hidxlt)]
      simp [teamSums]
    rw [hgetS]
    simp [List.sum_append]
  · show ((st.teams.set idx _).map List.length).sum = _
    have := sum_map_set_nat List.length st.teams idx (st.teams.getD idx [] ++ [p]) hidxlt
    rw [hgetT] at this ⊢
    simp only [List.length_append, List.length_cons, List.length_nil] at this
    unfold membersCount
    omega

lemma foldl_greedy_inv (n num : ℕ) :
    ∀ (l : List Player) (st : GreedyState), GreedyInv n num st →
      membersCount st + l.length ≤ num * n →
      GreedyInv n num (l.foldl (greedyStep n num) st) ∧
        membersCount (l.foldl (greedyStep n num) st) = membersCount st + l.length := by
  intro l
  induction l with
  | nil =>
    intro st hinv _
    simp only [List.foldl_nil, List.length_nil, Nat.add_zero]
    exact ⟨hinv, trivial⟩
  | cons p l ih =>
    intro st hinv hroom
    simp only [List.length_cons] at hroom
    have hroom' : membersCount st < num * n := by omega
    obtain ⟨hinv', hcount'⟩ := greedyStep_spec n num st p hinv hroom'
    have hres := ih (greedyStep n num st p) hinv' (by omega)
    simp only [List.foldl_cons]
    refine ⟨hres.1, ?_⟩
    rw [hres.2, hcount']
    simp only [List.length_cons]
    omega

lemma faseGreedy_eq (lista : List Player) (n : ℕ) :
    faseGreedy lista n =
      (((sortPlayers lista).take ((lista.length / n) * n)).foldl
          (greedyStep n (lista.length / n))
          { teams := List.replicate (lista.length / n) []
            sums := List.replicate (lista.length / n) 0 },
        (sortPlayers lista).drop ((lista.length / n) * n)) := rfl

lemma faseGreedy_spec (lista : List Player) (n : ℕ) :
    GreedyInv n (lista.length / n) (faseGreedy lista n).1 ∧
      membersCount (faseGreedy lista n).1 = (lista.length / n) * n := by
  have hinit : GreedyInv n (lista.length / n)
      { teams := List.replicate (lista.length / n) []
        sums := List.replicate (lista.length / n) 0 } := by
    refine ⟨by simp, by simp, ?_, ?_⟩
    · intro t ht
      rw [List.eq_of_mem_replicate ht]
      simp
    · simp [teamSums, List.map_replicate]
  have hcount0 : membersCount
      { teams := List.replicate (lista.length / n) ([] : List Player)
        sums := List.replicate (lista.length / n) (0 : ℚ) } = 0 := by
    simp [membersCount, List.map_replicate]
  have htake : ((sortPlayers lista).take ((lista.length / n) * n)).length =
      (lista.length / n) * n := by
    rw [List.length_take, sortPlayers_length]
    exact min_eq_left (Nat.div_mul_le_self _ _)
  have hres := foldl_greedy_inv n (lista.length / n)
    ((sortPlayers lista).take ((lista.length / n) * n))
    { teams := List.replicate (lista.length / n) []
      sums := List.replicate (lista.length / n) 0 }
    hinit (by rw [htake, hcount0]; omega)
  have hfst : (faseGreedy lista n).1 =
      ((sortPlayers lista).take ((lista.length / n) * n)).foldl
        (greedyStep n (lista.length / n))
        { teams := List.replicate (lista.length / n) []
          sums := List.replicate (lista.length / n) 0 } := by
    rw [faseGreedy_eq]
  rw [hfst]
  exact ⟨hres.1, by rw [hres.2, hcount0, htake]; omega⟩

lemma faseGreedy_team_lengths (lista : List Player) (n : ℕ) :
    ∀ t ∈ (faseGreedy lista n).1.teams, t.length = n := by
  obtain ⟨hinv, hcount⟩ := faseGreedy_spec lista n
  intro t ht
  have hall : ∀ x ∈ (faseGreedy lista n).1.teams.map List.length, x = n := by
    refine all_eq_of_sum_eq n _ ?_ ?_
    · intro x hx
      obtain ⟨t', ht', rfl⟩ := List.mem_map.mp hx
      exact hinv.small t' ht'
    · have h1 : ((faseGreedy lista n).1.teams.map List.length).sum = membersCount (faseGreedy lista n).1 := rfl
      have h2 : ((faseGreedy lista n).1.teams.map List.length).length = lista.length / n := by
        rw [List.length_map, hinv.tlen]
      rw [h1, h2, hcount]
  exact hall t.length (List.mem_map_of_mem List.length ht)

lemma faseGreedy_reservas (lista : List Player) (n : ℕ) :
    (faseGreedy lista n).2 = (sortPlayers lista).drop ((lista.length / n) * n) := rfl

/-! ### Invariants of the swap refinement phase -/

lemma samplePair_spec (num : ℕ) (c : Choice) (h : 2 ≤ num) :
    (samplePair num c).1 < num ∧ (samplePair num c).2 < num ∧
      (samplePair num c).1 ≠ (samplePair num c).2 := by
  have ha : c.ca % num < num := Nat.mod_lt _ (by omega)
  have hb0 : c.cb % (num - 1) < num - 1 := Nat.mod_lt _ (by omega)
  unfold samplePair
  by_cases hlt : c.cb % (num - 1) < c.ca % num
  · simp only [hlt, if_pos]
    refine ⟨ha, by omega, by omega⟩
  · simp only [hlt, if_neg, if_false]
    refine ⟨ha, by omega, by omega⟩

/-- Invariants maintained by the swap refinement loop. -/
structure SwapInv (n num : ℕ) (st : SwapState) : Prop where
  tlen : st.teams.length = num
  slen : st.sums.length = num
  teamlen : ∀ t ∈ st.teams, t.length = n
  sums_eq : st.sums = teamSums st.teams
  best_eq : st.bestVar = pvariance st.sums

lemma swapIter_commit_or_skip (num : ℕ) (st : SwapState) (c : Choice) :
    swapIter num st c = st ∨ (swapIter num st c).bestVar < st.bestVar := by
  unfold swapIter
  dsimp only
  split_ifs with h1 h2
  · exact Or.inl rfl
  · exact Or.inr h2
  · exact Or.inl rfl

lemma swapIter_bestVar_le (num : ℕ) (st : SwapState) (c : Choice) :
    (swapIter num st c).bestVar ≤ st.bestVar := by
  rcases swapIter_commit_or_skip num st c with h | h
  · rw [h]
  · exact le_of_lt h

lemma swapIter_inv (n num : ℕ) (st : SwapState) (c : Choice)
    (hnum : 2 ≤ num) (hinv : SwapInv n num st) :
    SwapInv n num (swapIter num st c) := by
  obtain ⟨ha, hb, hab⟩ := samplePair_spec num c hnum
  unfold swapIter
  dsimp only
  split_ifs with h1 hvar
  · exact hinv
  · -- committed swap
    push_neg at h1
    obtain ⟨hta0, htb0⟩ := h1
    set a := (samplePair num c).1 with hadef
    set b := (samplePair num c).2 with hbdef
    set ta := st.teams.getD a [] with htadef
    set tb := st.teams.getD b [] with htbdef
    set ia := c.cia % ta.length with hiadef
    set ib := c.cib % tb.length with hibdef
    set pa := ta.getD ia ⟨"", none⟩ with hpadef
    set pb := tb.getD ib ⟨"", none⟩ with hpbdef
    set sa := st.sums.getD a 0 - getScore pa + getScore pb with hsadef
    set sb := st.sums.getD b 0 - getScore pb + getScore pa with hsbdef
    have halt : a < st.teams.length := hinv.tlen ▸ ha
    have hblt : b < st.teams.length := hinv.tlen ▸ hb
    have halt' : a < st.sums.length := hinv.slen ▸ ha
    have hblt' : b < st.sums.length := hinv.slen ▸ hb
    have htaeq : ta = st.teams[a] := List.getD_eq_getElem st.teams [] halt
    have htbeq : tb = st.teams[b] := List.getD_eq_getElem st.teams [] hblt
    have hialt : ia < ta.length := Nat.mod_lt _ (by omega)
    have hiblt : ib < tb.length := Nat.mod_lt _ (by omega)
    have hpaeq : pa = ta[ia] := List.getD_eq_getElem ta ⟨"", none⟩ hialt
    have hpbeq : pb = tb[ib] := List.getD_eq_getElem tb ⟨"", none⟩ hiblt
    have hsums_a : st.sums.getD a 0 = (ta.map getScore).sum := by
      rw [List.getD_eq_getElem st.sums 0 halt', List.getElem_of_eq hinv.sums_eq halt']
      rw [htaeq]
      simp [teamSums]
    have hsums_b : st.sums.getD b 0 = (tb.map getScore).sum := by
      rw [List.getD_eq_getElem st.sums 0 hblt', List.getElem_of_eq hinv.sums_eq hblt']
      rw [htbeq]
      simp [teamSums]
    have hsa_eq : sa = ((ta.set ia pb).map getScore).sum := by
      rw [sum_map_set_rat getScore ta ia pb hialt, hsadef, hsums_a, hpaeq]
    have hsb_eq : sb = ((tb.set ib pa).map getScore).sum := by
      rw [sum_map_set_rat getScore tb ib pa hiblt, hsbdef, hsums_b, hpbeq]
    refine ⟨?_, ?_, ?_, ?_, ?_⟩
    · show ((st.teams.set a (ta.set ia pb)).set b (tb.set ib pa)).length = num
      simp [hinv.tlen]
    · show ((st.sums.set a sa).set b sb).length = num
      simp [hinv.slen]
    · intro t ht
      have ht' : t ∈ (st.teams.set a (ta.set ia pb)).set b (tb.set ib pa) := ht
      rcases List.mem_or_eq_of_mem_set ht' with ht1 | rfl
      · rcases List.mem_or_eq_of_mem_set ht1 with ht2 | rfl
        · exact hinv.teamlen t ht2
        · rw [List.length_set, htaeq]
          exact hinv.teamlen _ (List.getElem_mem halt)
      · rw [List.length_set, htbeq]
        exact hinv.teamlen _ (List.getElem_mem hblt)
    · show (st.sums.set a sa).set b sb =
        teamSums ((st.teams.set a (ta.set ia pb)).set b (tb.set ib pa))
      have hg : teamSums ((st.teams.set a (ta.set ia pb)).set b (tb.set ib pa)) =
          ((teamSums st.teams).set a (((ta.set ia pb).map getScore).sum)).set b
            (((tb.set ib pa).map getScore).sum) := by
        simp [teamSums, List.map_set]
      rw [hg, ← hinv.sums_eq, ← hsa_eq, ← hsb_eq]
    · show pvariance ((st.sums.set a sa).set b sb) = pvariance ((st.sums.set a sa).set b sb)
      rfl
  · exact hinv

lemma swapLoop_ok (n num : ℕ) (hnum : 2 ≤ num) :
    ∀ (m : ℕ) (oracle : ℕ → Choice) (st : SwapState), SwapInv n num st →
      ∃ st', swapLoop num oracle m st = .ok st' ∧ SwapInv n num st' ∧
        st'.bestVar ≤ st.bestVar := by
  intro m
  induction m with
  | zero => intro oracle st hinv; exact ⟨st, rfl, hinv, le_refl _⟩
  | succ m ih =>
    intro oracle st hinv
    have hlt : ¬ num < 2 := not_lt.mpr hnum
    obtain ⟨st', hok, hinv', hle⟩ := ih (fun i => oracle (i + 1))
      (swapIter num st (oracle 0)) (swapIter_inv n num st (oracle 0) hnum hinv)
    refine ⟨st', ?_, hinv', le_trans hle (swapIter_bestVar_le num st (oracle 0))⟩
    show swapLoop num oracle (m + 1) st = .ok st'
    unfold swapLoop
    rw [if_neg hlt]
    exact hok

lemma swapLoop_ok_cases (num : ℕ) (m : ℕ) (oracle : ℕ → Choice) (st st' : SwapState)
    (h : swapLoop num oracle m st = .ok st') : 2 ≤ num ∨ st' = st := by
  cases m with
  | zero =>
    right
    have : Except.ok (ε := PyError) st = .ok st' := h
    exact (Except.ok.injEq .. ▸ this).symm
  | succ m =>
    by_cases hn : num < 2
    · exfalso
      unfold swapLoop at h
      rw [if_pos hn] at h
      exact Except.noConfusion h
    · exact Or.inl (not_lt.mp hn)

lemma swapLoop_error_of_one (num : ℕ) (m : ℕ) (oracle : ℕ → Choice) (st : SwapState)
    (hnum : num < 2) (hm : 1 ≤ m) :
    swapLoop num oracle m st = .error .valueError := by
  cases m with
  | zero => omega
  | succ m =>
    unfold swapLoop
    rw [if_pos hnum]

/-! ### Bridging Python floor division on `ℤ` and `ℕ` division -/

lemma fdiv_natCast (a b : ℕ) : Int.fdiv (a : ℤ) (b : ℤ) = ((a / b : ℕ) : ℤ) := by
  cases a with
  | zero => simp [Int.fdiv]
  | succ m => rfl

lemma fdiv_neg_nonpos (a : ℕ) (nz : ℤ) (hn : nz < 0) : Int.fdiv (a : ℤ) nz ≤ 0 := by
  cases nz with
  | ofNat k =>
    exfalso
    have : (0 : ℤ) ≤ Int.ofNat k := Int.ofNat_nonneg k
    omega
  | negSucc b =>
    cases a with
    | zero => simp [Int.fdiv]
    | succ m =>
      show Int.negSucc (m / (b + 1)) ≤ 0
      exact le_of_lt (Int.negSucc_lt_zero _)

lemma balancear_degenerate (lista : List Player) (nz : ℤ) (m : ℕ) (oracle : ℕ → Choice)
    (hnz : nz ≠ 0) (hfd : Int.fdiv lista.length nz ≤ 0) :
    balancear lista nz m oracle = .ok ([], lista) := by
  unfold balancear
  rw [if_neg hnz, if_pos hfd]

lemma balancear_main (lista : List Player) (nz : ℤ) (m : ℕ) (oracle : ℕ → Choice)
    (hn : 1 ≤ nz) (hnum : 1 ≤ lista.length / nz.toNat) :
    balancear lista nz m oracle = balancearPos lista nz.toNat m oracle := by
  have hnz : nz ≠ 0 := by omega
  have hcast : nz = ((nz.toNat : ℕ) : ℤ) := (Int.toNat_of_nonneg (by omega)).symm
  have hfd : ¬ Int.fdiv (lista.length : ℤ) nz ≤ 0 := by
    rw [hcast, fdiv_natCast]
    have : (0 : ℤ) < ((lista.length / nz.toNat : ℕ) : ℤ) := by
      exact_mod_cast hnum
    omega
  unfold balancear
  rw [if_neg hnz, if_neg hfd]

lemma num_zero_of_small (lista : List Player) (nz : ℤ) (hn : 1 ≤ nz)
    (hsmall : lista.length < nz.toNat) : Int.fdiv (lista.length : ℤ) nz ≤ 0 := by
  have hcast : nz = ((nz.toNat : ℕ) : ℤ) := (Int.toNat_of_nonneg (by omega)).symm
  rw [hcast, fdiv_natCast]
  rw [Nat.div_eq_of_lt hsmall]
  simp

/-- The initial state of the refinement loop satisfies the loop invariant. -/
lemma st0_inv (lista : List Player) (n : ℕ) :
    SwapInv n (lista.length / n)
      { teams := (faseGreedy lista n).1.teams
        sums := (faseGreedy lista n).1.sums
        bestVar := pvariance (faseGreedy lista n).1.sums } := by
  obtain ⟨hinv, _⟩ := faseGreedy_spec lista n
  exact ⟨hinv.tlen, hinv.slen, faseGreedy_team_lengths lista n, hinv.sums_eq, rfl⟩

lemma balancearPos_ok (lista : List Player) (n m : ℕ) (oracle : ℕ → Choice)
    (ts : List (List Player)) (rs : List Player)
    (hok : balancearPos lista n m oracle = .ok (ts, rs)) :
    ∃ st', swapLoop (lista.length / n) oracle m
        { teams := (faseGreedy lista n).1.teams
          sums := (faseGreedy lista n).1.sums
          bestVar := pvariance (faseGreedy lista n).1.sums } = .ok st' ∧
      ts = st'.teams ∧ rs = (faseGreedy lista n).2 := by
  unfold balancearPos at hok
  dsimp only at hok
  cases hsl : swapLoop (lista.length / n) oracle m
      { teams := (faseGreedy lista n).1.teams
        sums := (faseGreedy lista n).1.sums
        bestVar := pvariance (faseGreedy lista n).1.sums } with
  | error e => rw [hsl] at hok; exact Except.noConfusion hok
  | ok st' =>
    rw [hsl] at hok
    refine ⟨st', rfl, ?_, ?_⟩
    · have := (Except.ok.injEq .. ▸ hok)
      exact (congrArg Prod.fst this).symm
    · have := (Except.ok.injEq .. ▸ hok)
      exact (congrArg Prod.snd this).symm

lemma balancear_ok_main (lista : List Player) (nz : ℤ) (m : ℕ) (oracle : ℕ → Choice)
    (ts : List (List Player)) (rs : List Player)
    (hn : 1 ≤ nz) (hnum : 1 ≤ lista.length / nz.toNat)
    (hok : balancear lista nz m oracle = .ok (ts, rs)) :
    ∃ st', SwapInv nz.toNat (lista.length / nz.toNat) st' ∧ ts = st'.teams ∧
      rs = (sortPlayers lista).drop ((lista.length / nz.toNat) * nz.toNat) ∧
      st'.bestVar ≤ pvariance (faseGreedy lista nz.toNat).1.sums := by
  rw [balancear_main lista nz m oracle hn hnum] at hok
  obtain ⟨st', hsl, hts, hrs⟩ := balancearPos_ok lista nz.toNat m oracle ts rs hok
  rcases swapLoop_ok_cases _ m oracle _ st' hsl with h2 | hst
  · obtain ⟨st'', hsl', hinv'', hle''⟩ :=
      swapLoop_ok nz.toNat (lista.length / nz.toNat) h2 m oracle _ (st0_inv lista nz.toNat)
    have hee : st' = st'' := by
      rw [hsl] at hsl'
      exact (Except.ok.injEq .. ▸ hsl')
    subst hee
    exact ⟨st', hinv'', hts, by rw [hrs, faseGreedy_reservas], hle''⟩
  · subst hst
    exact ⟨_, st0_inv lista nz.toNat, hts, by rw [hrs, faseGreedy_reservas], le_refl _⟩

lemma fdiv_nonpos_of_div_zero (lista : List Player) (nz : ℤ) (hn : 1 ≤ nz)
    (h0 : lista.length / nz.toNat = 0) : Int.fdiv (lista.length : ℤ) nz ≤ 0 := by
  have hcast : nz = ((nz.toNat : ℕ) : ℤ) := (Int.toNat_of_nonneg (by omega)).symm
  rw [hcast, fdiv_natCast, h0]
  simp

lemma balancearPos_ok_of (lista : List Player) (n m : ℕ) (oracle : ℕ → Choice)
    (st' : SwapState)
    (hsl : swapLoop (lista.length / n) oracle m
        { teams := (faseGreedy lista n).1.teams
          sums := (faseGreedy lista n).1.sums
          bestVar := pvariance (faseGreedy lista n).1.sums } = .ok st') :
    balancearPos lista n m oracle = .ok (st'.teams, (faseGreedy lista n).2) := by
  unfold balancearPos
  dsimp only
  rw [hsl]

/-- C6: for every roster `R` and team size `k ≥ 1`, every returned team
has exactly `k` members: when `len(R) < k` no team is formed (the whole
roster is returned as reserves), when teams are formed there are
`len(R) / k` of them, each of size exactly `k`, and already after the
greedy seeding every team has exactly `k` members (swaps never change
team sizes). -/
theorem team_size_uniformity (R : List Player) (nz : ℤ) (m : ℕ) (oracle : ℕ → Choice)
    (hn : 1 ≤ nz) :
    (R.length < nz.toNat → balancear R nz m oracle = .ok ([], R)) ∧
    (∀ ts rs, balancear R nz m oracle = .ok (ts, rs) →
      ts.length = R.length / nz.toNat ∧ ∀ t ∈ ts, t.length = nz.toNat) ∧
    (∀ t ∈ (faseGreedy R nz.toNat).1.teams, t.length = nz.toNat) := by
  refine ⟨?_, ?_, faseGreedy_team_lengths R nz.toNat⟩
  · intro hsmall
    exact balancear_degenerate R nz m oracle (by omega) (num_zero_of_small R nz hn hsmall)
  · intro ts rs hok
    by_cases hnum : 1 ≤ R.length / nz.toNat
    · obtain ⟨st', hinv, hts, hrs, _⟩ := balancear_ok_main R nz m oracle ts rs hn hnum hok
      exact ⟨by rw [hts, hinv.tlen], by rw [hts]; exact hinv.teamlen⟩
    · push_neg at hnum
      have h0 : R.length / nz.toNat = 0 := Nat.lt_one_iff.mp hnum
      have hdeg := balancear_degenerate R nz m oracle (by omega)
        (fdiv_nonpos_of_div_zero R nz hn h0)
      rw [hdeg] at hok
      have hpair : (([] : List (List Player)), R) = (ts, rs) := Except.ok.injEq .. ▸ hok
      have hts : ts = [] := (congrArg Prod.fst hpair).symm
      subst hts
      exact ⟨by simp [h0], by simp⟩

/-- C6 witness: instantiation at a concrete roster and team size. -/
theorem team_size_uniformity_witness :
    (1 : ℤ) ≤ 2 ∧
    (([⟨"P0", some 100⟩, ⟨"P1", some 105⟩, ⟨"P2", some 110⟩] : List Player).length <
        (2 : ℤ).toNat →
      balancear [⟨"P0", some 100⟩, ⟨"P1", some 105⟩, ⟨"P2", some 110⟩] 2 0
        (fun _ => ⟨0, 0, 0, 0⟩) =
        .ok ([], [⟨"P0", some 100⟩, ⟨"P1", some 105⟩, ⟨"P2", some 110⟩])) ∧
    (∀ ts rs, balancear [⟨"P0", some 100⟩, ⟨"P1", some 105⟩, ⟨"P2", some 110⟩] 2 0
        (fun _ => ⟨0, 0, 0, 0⟩) = .ok (ts, rs) →
      ts.length = ([⟨"P0", some 100⟩, ⟨"P1", some 105⟩, ⟨"P2", some 110⟩] : List Player).length /
          (2 : ℤ).toNat ∧ ∀ t ∈ ts, t.length = (2 : ℤ).toNat) ∧
    (∀ t ∈ (faseGreedy [⟨"P0", some 100⟩, ⟨"P1", some 105⟩, ⟨"P2", some 110⟩]
        (2 : ℤ).toNat).1.teams, t.length = (2 : ℤ).toNat) :=
  ⟨by decide, team_size_uniformity [⟨"P0", some 100⟩, ⟨"P1", some 105⟩, ⟨"P2", some 110⟩]
    2 0 (fun _ => ⟨0, 0, 0, 0⟩) (by decide)⟩

/-- C7 counterexample: with team size `0` the call does not return
`([], [])` — the Python computation `len(lista) // 0` raises
`ZeroDivisionError`, so the claim fails at the concrete input
`balance([], 0)`. -/
theorem balancear_empty_zero_size_errors :
    balancear [] 0 2000 (fun _ => ⟨0, 0, 0, 0⟩) ≠ .ok ([], []) := by
  decide

/-- C7 (amended): for every nonzero team size `k` the empty roster
yields `([], [])`, and for every roster with `0 < len(R) < k` the call
returns `([], R)`, the whole roster (each element exactly once) as
reserves and no teams.  (At `k = 0` the division `len(R) // 0` raises
`ZeroDivisionError` instead.) -/
theorem degenerate_cases_defined (k : ℤ) (m : ℕ) (oracle : ℕ → Choice) (R : List Player)
    (hk : k ≠ 0) :
    balancear [] k m oracle = .ok ([], []) ∧
    (0 < R.length → (R.length : ℤ) < k → balancear R k m oracle = .ok ([], R)) := by
  constructor
  · refine balancear_degenerate [] k m oracle hk ?_
    have h0 : ((List.length ([] : List Player) : ℕ) : ℤ) = 0 := by simp
    rw [h0, Int.zero_fdiv]
  · intro hpos hlt
    have hk1 : 1 ≤ k := by omega
    have hsmall : R.length < k.toNat := by omega
    exact balancear_degenerate R k m oracle hk (num_zero_of_small R k hk1 hsmall)

/-- C7 witness: instantiation at concrete inputs. -/
theorem degenerate_cases_defined_witness :
    (3 : ℤ) ≠ 0 ∧
    (balancear [] 3 7 (fun _ => ⟨0, 0, 0, 0⟩) = .ok ([], []) ∧
      (0 < ([⟨"a", some 1⟩, ⟨"b", some 5⟩] : List Player).length →
        ((([⟨"a", some 1⟩, ⟨"b", some 5⟩] : List Player).length : ℕ) : ℤ) < 3 →
        balancear [⟨"a", some 1⟩, ⟨"b", some 5⟩] 3 7 (fun _ => ⟨0, 0, 0, 0⟩) =
          .ok ([], [⟨"a", some 1⟩, ⟨"b", some 5⟩]))) :=
  ⟨by decide, degenerate_cases_defined 3 7 (fun _ => ⟨0, 0, 0, 0⟩)
    [⟨"a", some 1⟩, ⟨"b", some 5⟩] (by decide)⟩

/-- C10: with team size `0` and a non-empty roster the call raises
`ZeroDivisionError` (it also does on an empty roster), and with any
negative team size it returns `([], R)` with the full roster as
reserves and no exception. -/
theorem nonpositive_team_size_boundary (R : List Player) (m : ℕ) (oracle : ℕ → Choice) :
    (R ≠ [] → balancear R 0 m oracle = .error .zeroDivision) ∧
    (∀ k : ℤ, k < 0 → balancear R k m oracle = .ok ([], R)) := by
  constructor
  · intro _
    unfold balancear
    rw [if_pos rfl]
  · intro k hk
    exact balancear_degenerate R k m oracle (by omega) (fdiv_neg_nonpos R.length k hk)

/-- C10 witness: instantiation at a concrete roster. -/
theorem nonpositive_team_size_boundary_witness :
    (([⟨"x", some 7⟩] : List Player) ≠ [] ∧
      balancear [⟨"x", some 7⟩] 0 5 (fun _ => ⟨0, 0, 0, 0⟩) = .error .zeroDivision) ∧
    ((-2 : ℤ) < 0 ∧
      balancear [⟨"x", some 7⟩] (-2) 5 (fun _ => ⟨0, 0, 0, 0⟩) = .ok ([], [⟨"x", some 7⟩])) :=
  ⟨⟨by decide, (nonpositive_team_size_boundary [⟨"x", some 7⟩] 5 (fun _ => ⟨0, 0, 0, 0⟩)).1
      (by decide)⟩,
    ⟨by decide, (nonpositive_team_size_boundary [⟨"x", some 7⟩] 5 (fun _ => ⟨0, 0, 0, 0⟩)).2
      (-2) (by decide)⟩⟩

/-- C8 counterexample: when `len(R) < k` the reserves are the roster in
input order, not re-sorted: for `R = [a(score 1), b(score 5)]`, `k = 3`,
the call returns reserves `[a, b]` although `a`'s score is below `b`'s,
so the returned reserves are not ordered by descending score and differ
from the tail of the descending-score sort. -/
theorem reserves_unsorted_when_no_team :
    balancear [⟨"a", some 1⟩, ⟨"b", some 5⟩] 3 0 (fun _ => ⟨0, 0, 0, 0⟩) =
      .ok ([], [⟨"a", some 1⟩, ⟨"b", some 5⟩]) ∧
    getScore (⟨"a", some 1⟩ : Player) < getScore (⟨"b", some 5⟩ : Player) := by
  constructor
  · decide
  · decide

/-- C8 (amended): for every roster with at least `k ≥ 1` players (at
least one team), whenever the call returns, the returned reserves are
exactly the players beyond the first `num_teams * k` positions of the
descending-score sort, and are themselves ordered by descending score.
(When `len(R) < k` the reserves are the roster in input order instead.) -/
theorem reserves_suffix_of_sorted (R : List Player) (nz : ℤ) (m : ℕ) (oracle : ℕ → Choice)
    (ts : List (List Player)) (rs : List Player)
    (hn : 1 ≤ nz) (hge : nz.toNat ≤ R.length)
    (hok : balancear R nz m oracle = .ok (ts, rs)) :
    rs = (sortPlayers R).drop ((R.length / nz.toNat) * nz.toNat) ∧ rs.Pairwise scoreGE := by
  have hnum : 1 ≤ R.length / nz.toNat := (Nat.one_le_div_iff (by omega)).mpr hge
  obtain ⟨st', _, _, hrs, _⟩ := balancear_ok_main R nz m oracle ts rs hn hnum hok
  refine ⟨hrs, ?_⟩
  rw [hrs]
  exact List.Pairwise.sublist (List.drop_sublist _ _) (sortPlayers_sorted R)

/-- C8 witness: instantiation at a concrete roster with one team of two
and one reserve. -/
theorem reserves_suffix_of_sorted_witness :
    (1 : ℤ) ≤ 2 ∧
    (2 : ℤ).toNat ≤ ([⟨"P0", some 100⟩, ⟨"P1", some 105⟩, ⟨"P2", some 110⟩] : List Player).length ∧
    balancear [⟨"P0", some 100⟩, ⟨"P1", some 105⟩, ⟨"P2", some 110⟩] 2 0
        (fun _ => ⟨0, 0, 0, 0⟩) = .ok ([[⟨"P2", some 110⟩, ⟨"P1", some 105⟩]], [⟨"P0", some 100⟩]) ∧
    ([⟨"P0", some 100⟩] : List Player) =
        (sortPlayers [⟨"P0", some 100⟩, ⟨"P1", some 105⟩, ⟨"P2", some 110⟩]).drop
          ((([⟨"P0", some 100⟩, ⟨"P1", some 105⟩, ⟨"P2", some 110⟩] : List Player).length /
              (2 : ℤ).toNat) * (2 : ℤ).toNat) ∧
    ([⟨"P0", some 100⟩] : List Player).Pairwise scoreGE :=
  ⟨by decide, by decide, by decide,
    reserves_suffix_of_sorted [⟨"P0", some 100⟩, ⟨"P1", some 105⟩, ⟨"P2", some 110⟩] 2 0
      (fun _ => ⟨0, 0, 0, 0⟩) [[⟨"P2", some 110⟩, ⟨"P1", some 105⟩]] [⟨"P0", some 100⟩]
      (by decide) (by decide) (by decide)⟩

/-- C4: with at least two teams, the refinement loop returns normally
for every iteration bound and oracle, and the population variance of the
(recomputed) team score sums after Phase 2 is at most the variance
immediately after Phase 1; moreover each iteration either leaves the
state entirely unchanged or commits a swap that strictly decreases the
best-variance record, which is therefore monotonically non-increasing. -/
theorem variance_nonincreasing_refinement (R : List Player) (nz : ℤ) (m : ℕ)
    (oracle : ℕ → Choice) (hn : 1 ≤ nz) (h2 : 2 ≤ R.length / nz.toNat) :
    (∃ ts rs, balancear R nz m oracle = .ok (ts, rs) ∧
      pvariance (teamSums ts) ≤ pvariance (teamSums (faseGreedy R nz.toNat).1.teams)) ∧
    (∀ (st : SwapState) (c : Choice),
      swapIter (R.length / nz.toNat) st c = st ∨
        (swapIter (R.length / nz.toNat) st c).bestVar < st.bestVar) ∧
    (∀ (st : SwapState) (c : Choice),
      (swapIter (R.length / nz.toNat) st c).bestVar ≤ st.bestVar) := by
  refine ⟨?_, swapIter_commit_or_skip _, swapIter_bestVar_le _⟩
  obtain ⟨st', hsl, hinv', hle'⟩ := swapLoop_ok nz.toNat (R.length / nz.toNat) h2 m oracle
    { teams := (faseGreedy R nz.toNat).1.teams
      sums := (faseGreedy R nz.toNat).1.sums
      bestVar := pvariance (faseGreedy R nz.toNat).1.sums }
    (st0_inv R nz.toNat)
  refine ⟨st'.teams, (faseGreedy R nz.toNat).2, ?_, ?_⟩
  · rw [balancear_main R nz m oracle hn (by omega)]
    exact balancearPos_ok_of R nz.toNat m oracle st' hsl
  · have h1 : pvariance (teamSums st'.teams) = st'.bestVar := by
      rw [← hinv'.sums_eq, ← hinv'.best_eq]
    have h2' : pvariance (teamSums (faseGreedy R nz.toNat).1.teams) =
        pvariance (faseGreedy R nz.toNat).1.sums := by
      rw [← (faseGreedy_spec R nz.toNat).1.sums_eq]
    rw [h1, h2']
    exact hle'

/-- C4 witness: instantiation at a concrete four-player roster forming
two teams. -/
theorem variance_nonincreasing_refinement_witness :
    (1 : ℤ) ≤ 2 ∧
    2 ≤ ([⟨"a", some 1⟩, ⟨"b", some 2⟩, ⟨"c", some 3⟩, ⟨"d", some 4⟩] : List Player).length /
        (2 : ℤ).toNat ∧
    ((∃ ts rs, balancear [⟨"a", some 1⟩, ⟨"b", some 2⟩, ⟨"c", some 3⟩, ⟨"d", some 4⟩] 2 5
        (fun _ => ⟨0, 1, 0, 0⟩) = .ok (ts, rs) ∧
      pvariance (teamSums ts) ≤ pvariance (teamSums
        (faseGreedy [⟨"a", some 1⟩, ⟨"b", some 2⟩, ⟨"c", some 3⟩, ⟨"d", some 4⟩]
          (2 : ℤ).toNat).1.teams)) ∧
    (∀ (st : SwapState) (c : Choice),
      swapIter (([⟨"a", some 1⟩, ⟨"b", some 2⟩, ⟨"c", some 3⟩, ⟨"d", some 4⟩] : List Player).length /
          (2 : ℤ).toNat) st c = st ∨
        (swapIter (([⟨"a", some 1⟩, ⟨"b", some 2⟩, ⟨"c", some 3⟩, ⟨"d", some 4⟩] : List Player).length /
          (2 : ℤ).toNat) st c).bestVar < st.bestVar) ∧
    (∀ (st : SwapState) (c : Choice),
      (swapIter (([⟨"a", some 1⟩, ⟨"b", some 2⟩, ⟨"c", some 3⟩, ⟨"d", some 4⟩] : List Player).length /
          (2 : ℤ).toNat) st c).bestVar ≤ st.bestVar)) :=
  ⟨by decide, by decide,
    variance_nonincreasing_refinement
      [⟨"a", some 1⟩, ⟨"b", some 2⟩, ⟨"c", some 3⟩, ⟨"d", some 4⟩] 2 5
      (fun _ => ⟨0, 1, 0, 0⟩) (by decide) (by decide)⟩

/-- C5: Phase 1 is a deterministic function of the roster.  The sort is
a permutation of the input, descending in score, and stable (players of
any fixed score keep their input order); the greedy walk processes the
first `num * n` sorted players in order, and each step appends the
player to the team with the least index among the not-yet-full teams of
minimal running sum, then adds the player's score to that team's sum. -/
theorem greedy_phase_deterministic_spec (l : List Player) (n num : ℕ) (st : GreedyState)
    (p : Player) (idx : ℕ)
    (hmin : pyMin (fun i => st.sums.getD i 0) (candidatosOf n num st.teams) = some idx) :
    List.Perm (sortPlayers l) l ∧
    List.Sorted scoreGE (sortPlayers l) ∧
    (∀ q : ℚ, (sortPlayers l).filter (fun p0 => decide (getScore p0 = q)) =
      l.filter (fun p0 => decide (getScore p0 = q))) ∧
    faseGreedy l n = (((sortPlayers l).take ((l.length / n) * n)).foldl
        (greedyStep n (l.length / n))
        { teams := List.replicate (l.length / n) []
          sums := List.replicate (l.length / n) 0 },
      (sortPlayers l).drop ((l.length / n) * n)) ∧
    (∀ i, i ∈ candidatosOf n num st.teams ↔
      i < num ∧ (st.teams.getD i []).length < n) ∧
    idx ∈ candidatosOf n num st.teams ∧
    (∀ j ∈ candidatosOf n num st.teams, st.sums.getD idx 0 ≤ st.sums.getD j 0) ∧
    (∀ j ∈ candidatosOf n num st.teams, st.sums.getD j 0 ≤ st.sums.getD idx 0 → idx ≤ j) ∧
    greedyStep n num st p =
      { teams := st.teams.set idx (st.teams.getD idx [] ++ [p])
        sums := st.sums.set idx (st.sums.getD idx 0 + getScore p) } := by
  obtain ⟨hmem, hle, hfirst⟩ := pyMin_spec _ _ _ hmin
  refine ⟨sortPlayers_perm l, sortPlayers_sorted l, sortPlayers_filter_score l,
    faseGreedy_eq l n, fun i => mem_candidatosOf, hmem, hle,
    hfirst (candidatosOf_pairwise n num st.teams), ?_⟩
  unfold greedyStep
  rw [hmin]

/-- C5 witness: instantiation at a concrete sort input and a concrete
greedy state with two open teams. -/
theorem greedy_phase_deterministic_spec_witness :
    (pyMin (fun i => ([0, 0] : List ℚ).getD i 0) (candidatosOf 2 2 [[], []]) = some 0) ∧
    (List.Perm (sortPlayers [⟨"a", some 1⟩, ⟨"b", some 5⟩]) [⟨"a", some 1⟩, ⟨"b", some 5⟩] ∧
    List.Sorted scoreGE (sortPlayers [⟨"a", some 1⟩, ⟨"b", some 5⟩]) ∧
    (∀ q : ℚ, (sortPlayers [⟨"a", some 1⟩, ⟨"b", some 5⟩]).filter
        (fun p0 => decide (getScore p0 = q)) =
      ([⟨"a", some 1⟩, ⟨"b", some 5⟩] : List Player).filter (fun p0 => decide (getScore p0 = q))) ∧
    faseGreedy [⟨"a", some 1⟩, ⟨"b", some 5⟩] 2 =
      (((sortPlayers [⟨"a", some 1⟩, ⟨"b", some 5⟩]).take
          ((([⟨"a", some 1⟩, ⟨"b", some 5⟩] : List Player).length / 2) * 2)).foldl
        (greedyStep 2 (([⟨"a", some 1⟩, ⟨"b", some 5⟩] : List Player).length / 2))
        { teams := List.replicate (([⟨"a", some 1⟩, ⟨"b", some 5⟩] : List Player).length / 2) []
          sums := List.replicate (([⟨"a", some 1⟩, ⟨"b", some 5⟩] : List Player).length / 2) 0 },
      (sortPlayers [⟨"a", some 1⟩, ⟨"b", some 5⟩]).drop
        ((([⟨"a", some 1⟩, ⟨"b", some 5⟩] : List Player).length / 2) * 2)) ∧
    (∀ i, i ∈ candidatosOf 2 2 [[], []] ↔
      i < 2 ∧ (([[], []] : List (List Player)).getD i []).length < 2) ∧
    0 ∈ candidatosOf 2 2 [[], []] ∧
    (∀ j ∈ candidatosOf 2 2 [[], []],
      ([0, 0] : List ℚ).getD 0 0 ≤ ([0, 0] : List ℚ).getD j 0) ∧
    (∀ j ∈ candidatosOf 2 2 [[], []],
      ([0, 0] : List ℚ).getD j 0 ≤ ([0, 0] : List ℚ).getD 0 0 → 0 ≤ j) ∧
    greedyStep 2 2 ⟨[[], []], [0, 0]⟩ ⟨"p", some 1⟩ =
      { teams := ([[], []] : List (List Player)).set 0
          (([[], []] : List (List Player)).getD 0 [] ++ [⟨"p", some 1⟩])
        sums := ([0, 0] : List ℚ).set 0
          (([0, 0] : List ℚ).getD 0 0 + getScore ⟨"p", some 1⟩) }) :=
  ⟨by decide, greedy_phase_deterministic_spec [⟨"a", some 1⟩, ⟨"b", some 5⟩] 2 2
    ⟨[[], []], [0, 0]⟩ ⟨"p", some 1⟩ 0 (by decide)⟩

/-! ### Conservation: the balancer neither creates nor drops players -/

lemma greedyStep_flatten (n num : ℕ) (st : GreedyState) (p : Player)
    (hinv : GreedyInv n num st) (hroom : membersCount st < num * n) :
    List.Perm (greedyStep n num st p).teams.flatten (st.teams.flatten ++ [p]) := by
  have hexists : ∃ t ∈ st.teams, t.length < n := by
    by_contra hcon
    push_neg at hcon
    have : st.teams.length * n ≤ membersCount st := by
      have h1 : ∀ x ∈ st.teams.map List.length, n ≤ x := by
        intro x hx
        obtain ⟨t, ht, rfl⟩ := List.mem_map.mp hx
        exact hcon t ht
      have := List.card_nsmul_le_sum (st.teams.map List.length) n h1
      simpa [membersCount, smul_eq_mul, mul_comm] using this
    rw [hinv.tlen] at this
    omega
  obtain ⟨t, htmem, htlen⟩ := hexists
  obtain ⟨i, hi, hti⟩ := List.mem_iff_getElem.mp htmem
  have hine : i ∈ candidatosOf n num st.teams := by
    refine mem_candidatosOf.mpr ⟨hinv.tlen ▸ hi, ?_⟩
    rw [List.getD_eq_getElem st.teams [] hi, hti]
    exact htlen
  obtain ⟨idx, hmin⟩ := pyMin_isSome (fun i => st.sums.getD i 0) _ (List.ne_nil_of_mem hine)
  obtain ⟨hidxmem, -, -⟩ := pyMin_spec _ _ _ hmin
  have hidxlt : idx < st.teams.length := hinv.tlen ▸ (mem_candidatosOf.mp hidxmem).1
  have hstep : greedyStep n num st p =
      { teams := st.teams.set idx (st.teams.getD idx [] ++ [p])
        sums := st.sums.set idx (st.sums.getD idx 0 + getScore p) } := by
    unfold greedyStep
    rw [hmin]
  rw [hstep]
  have hgetT : st.teams.getD idx [] = st.teams[idx] :=
    List.getD_eq_getElem st.teams [] hidxlt
  show List.Perm (st.teams.set idx (st.teams.getD idx [] ++ [p])).flatten
    (st.teams.flatten ++ [p])
  rw [hgetT]
  have hperm := flatten_set_append_perm st.teams idx (st.teams[idx] ++ [p]) hidxlt
  have h2 : List.Perm (st.teams.flatten ++ (st.teams[idx] ++ [p]))
      ((st.teams.flatten ++ [p]) ++ st.teams[idx]) := by
    have h3 := (List.perm_append_comm :
        List.Perm (st.teams[idx] ++ [p]) ([p] ++ st.teams[idx])).append_left st.teams.flatten
    simpa [List.append_assoc] using h3
  exact (List.perm_append_right_iff st.teams[idx]).mp (hperm.trans h2)

lemma foldl_greedy_flatten (n num : ℕ) :
    ∀ (l : List Player) (st : GreedyState), GreedyInv n num st →
      membersCount st + l.length ≤ num * n →
      List.Perm (l.foldl (greedyStep n num) st).teams.flatten (st.teams.flatten ++ l) := by
  intro l
  induction l with
  | nil => intro st _ _; simp
  | cons p l ih =>
    intro st hinv hroom
    simp only [List.length_cons] at hroom
    obtain ⟨hinv', hcount'⟩ := greedyStep_spec n num st p hinv (by omega)
    have hrest := ih (greedyStep n num st p) hinv' (by omega)
    simp only [List.foldl_cons]
    have hstep := greedyStep_flatten n num st p hinv (by omega)
    have hcomb := hrest.trans (hstep.append_right l)
    have heq : (st.teams.flatten ++ [p]) ++ l = st.teams.flatten ++ (p :: l) := by
      rw [List.append_assoc, List.singleton_append]
    rw [heq] at hcomb
    exact hcomb

lemma faseGreedy_flatten (lista : List Player) (n : ℕ) :
    List.Perm (faseGreedy lista n).1.teams.flatten
      ((sortPlayers lista).take ((lista.length / n) * n)) := by
  have hinit : GreedyInv n (lista.length / n)
      { teams := List.replicate (lista.length / n) []
        sums := List.replicate (lista.length / n) 0 } := by
    refine ⟨by simp, by simp, ?_, ?_⟩
    · intro t ht
      rw [List.eq_of_mem_replicate ht]
      simp
    · simp [teamSums, List.map_replicate]
  have hcount0 : membersCount
      { teams := List.replicate (lista.length / n) ([] : List Player)
        sums := List.replicate (lista.length / n) (0 : ℚ) } = 0 := by
    simp [membersCount, List.map_replicate]
  have htake : ((sortPlayers lista).take ((lista.length / n) * n)).length =
      (lista.length / n) * n := by
    rw [List.length_take, sortPlayers_length]
    exact min_eq_left (Nat.div_mul_le_self _ _)
  have hres := foldl_greedy_flatten n (lista.length / n)
    ((sortPlayers lista).take ((lista.length / n) * n))
    { teams := List.replicate (lista.length / n) []
      sums := List.replicate (lista.length / n) 0 }
    hinit (by rw [htake, hcount0]; omega)
  have hfst : (faseGreedy lista n).1 =
      ((sortPlayers lista).take ((lista.length / n) * n)).foldl
        (greedyStep n (lista.length / n))
        { teams := List.replicate (lista.length / n) []
          sums := List.replicate (lista.length / n) 0 } := by
    rw [faseGreedy_eq]
  rw [hfst]
  have hflat0 : (List.replicate (lista.length / n) ([] : List Player)).flatten = [] := by
    simp
  simpa [hflat0] using hres

lemma swapIter_flatten (n num : ℕ) (st : SwapState) (c : Choice)
    (hnum : 2 ≤ num) (hinv : SwapInv n num st) :
    List.Perm (swapIter num st c).teams.flatten st.teams.flatten := by
  obtain ⟨ha, hb, hab⟩ := samplePair_spec num c hnum
  unfold swapIter
  dsimp only
  split_ifs with h1 hvar
  · exact List.Perm.refl _
  · push_neg at h1
    obtain ⟨hta0, htb0⟩ := h1
    set a := (samplePair num c).1 with hadef
    set b := (samplePair num c).2 with hbdef
    set ta := st.teams.getD a [] with htadef
    set tb := st.teams.getD b [] with htbdef
    set ia := c.cia % ta.length with hiadef
    set ib := c.cib % tb.length with hibdef
    set pa := ta.getD ia ⟨"", none⟩ with hpadef
    set pb := tb.getD ib ⟨"", none⟩ with hpbdef
    have halt : a < st.teams.length := hinv.tlen ▸ ha
    have hblt : b < st.teams.length := hinv.tlen ▸ hb
    have htaeq : ta = st.teams[a] := List.getD_eq_getElem st.teams [] halt
    have htbeq : tb = st.teams[b] := List.getD_eq_getElem st.teams [] hblt
    have hialt : ia < ta.length := Nat.mod_lt _ (by omega)
    have hiblt : ib < tb.length := Nat.mod_lt _ (by omega)
    have hpaeq : pa = ta[ia] := List.getD_eq_getElem ta ⟨"", none⟩ hialt
    have hpbeq : pb = tb[ib] := List.getD_eq_getElem tb ⟨"", none⟩ hiblt
    show List.Perm ((st.teams.set a (ta.set ia pb)).set b (tb.set ib pa)).flatten
      st.teams.flatten
    have hblt2 : b < (st.teams.set a (ta.set ia pb)).length := by simpa using hblt
    have hgetb : (st.teams.set a (ta.set ia pb))[b] = st.teams[b] :=
      List.getElem_set_ne hab ..
    have eA := Multiset.coe_eq_coe.mpr
      (flatten_set_append_perm (st.teams.set a (ta.set ia pb)) b (tb.set ib pa) hblt2)
    rw [hgetb, ← htbeq, ← Multiset.coe_add, ← Multiset.coe_add] at eA
    have eB := Multiset.coe_eq_coe.mpr (flatten_set_append_perm st.teams a (ta.set ia pb) halt)
    rw [← htaeq, ← Multiset.coe_add, ← Multiset.coe_add] at eB
    have eC := Multiset.coe_eq_coe.mpr (set_getElem_append_perm ta ia pb hialt)
    rw [← hpaeq, ← Multiset.coe_add, ← Multiset.coe_add] at eC
    have eD := Multiset.coe_eq_coe.mpr (set_getElem_append_perm tb ib pa hiblt)
    rw [← hpbeq, ← Multiset.coe_add, ← Multiset.coe_add] at eD
    rw [← Multiset.coe_eq_coe]
    have h3 : (↑(((st.teams.set a (ta.set ia pb)).set b (tb.set ib pa)).flatten) :
        Multiset Player) + ↑[pb] =
        (↑((st.teams.set a (ta.set ia pb)).flatten) : Multiset Player) + ↑[pa] := by
      apply add_right_cancel (b := (↑tb : Multiset Player))
      calc (↑(((st.teams.set a (ta.set ia pb)).set b (tb.set ib pa)).flatten) :
            Multiset Player) + ↑[pb] + ↑tb
          = ↑(((st.teams.set a (ta.set ia pb)).set b (tb.set ib pa)).flatten) + ↑tb + ↑[pb] := by
            abel
        _ = ↑((st.teams.set a (ta.set ia pb)).flatten) + ↑(tb.set ib pa) + ↑[pb] := by rw [eA]
        _ = ↑((st.teams.set a (ta.set ia pb)).flatten) + (↑(tb.set ib pa) + ↑[pb]) := by abel
        _ = ↑((st.teams.set a (ta.set ia pb)).flatten) + (↑tb + ↑[pa]) := by rw [eD]
        _ = ↑((st.teams.set a (ta.set ia pb)).flatten) + ↑[pa] + ↑tb := by abel
    have h4 : (↑((st.teams.set a (ta.set ia pb)).flatten) : Multiset Player) + ↑[pa] =
        (↑(st.teams.flatten) : Multiset Player) + ↑[pb] := by
      apply add_right_cancel (b := (↑ta : Multiset Player))
      calc (↑((st.teams.set a (ta.set ia pb)).flatten) : Multiset Player) + ↑[pa] + ↑ta
          = ↑((st.teams.set a (ta.set ia pb)).flatten) + ↑ta + ↑[pa] := by abel
        _ = ↑(st.teams.flatten) + ↑(ta.set ia pb) + ↑[pa] := by rw [eB]
        _ = ↑(st.teams.flatten) + (↑(ta.set ia pb) + ↑[pa]) := by abel
        _ = ↑(st.teams.flatten) + (↑ta + ↑[pb]) := by rw [eC]
        _ = ↑(st.teams.flatten) + ↑[pb] + ↑ta := by abel
    exact add_right_cancel (h3.trans h4)
  · exact List.Perm.refl _

lemma swapLoop_flatten (n num : ℕ) (hnum : 2 ≤ num) :
    ∀ (m : ℕ) (oracle : ℕ → Choice) (st : SwapState), SwapInv n num st →
      ∀ st', swapLoop num oracle m st = .ok st' →
        List.Perm st'.teams.flatten st.teams.flatten := by
  intro m
  induction m with
  | zero =>
    intro oracle st hinv st' hok
    have : Except.ok (ε := PyError) st = .ok st' := hok
    have hst : st = st' := Except.ok.injEq .. ▸ this
    rw [← hst]
  | succ m ih =>
    intro oracle st hinv st' hok
    have hlt : ¬ num < 2 := not_lt.mpr hnum
    unfold swapLoop at hok
    rw [if_neg hlt] at hok
    have hrest := ih (fun i => oracle (i + 1)) (swapIter num st (oracle 0))
      (swapIter_inv n num st (oracle 0) hnum hinv) st' hok
    exact hrest.trans (swapIter_flatten n num st (oracle 0) hnum hinv)

lemma balancear_conserves (R : List Player) (nz : ℤ) (m : ℕ) (oracle : ℕ → Choice)
    (ts : List (List Player)) (rs : List Player)
    (hok : balancear R nz m oracle = .ok (ts, rs)) :
    List.Perm (ts.flatten ++ rs) R := by
  by_cases h0 : nz = 0
  · subst h0
    unfold balancear at hok
    rw [if_pos rfl] at hok
    exact Except.noConfusion hok
  by_cases hfd : Int.fdiv (R.length : ℤ) nz ≤ 0
  · have hdeg := balancear_degenerate R nz m oracle h0 hfd
    rw [hdeg] at hok
    have hpair : (([] : List (List Player)), R) = (ts, rs) := Except.ok.injEq .. ▸ hok
    have hts : ts = [] := (congrArg Prod.fst hpair).symm
    have hrs : rs = R := (congrArg Prod.snd hpair).symm
    subst hts
    subst hrs
    simp
  · have hn : 1 ≤ nz := by
      rcases lt_trichotomy nz 0 with hlt | heq | hgt
      · exact absurd (fdiv_neg_nonpos R.length nz hlt) hfd
      · exact absurd heq h0
      · omega
    have hnum : 1 ≤ R.length / nz.toNat := by
      by_contra hcon
      push_neg at hcon
      exact hfd (fdiv_nonpos_of_div_zero R nz hn (Nat.lt_one_iff.mp hcon))
    rw [balancear_main R nz m oracle hn hnum] at hok
    obtain ⟨st', hsl, hts, hrs⟩ := balancearPos_ok R nz.toNat m oracle ts rs hok
    have hflat : List.Perm st'.teams.flatten (faseGreedy R nz.toNat).1.teams.flatten := by
      rcases swapLoop_ok_cases _ m oracle _ st' hsl with h2 | hst
      · exact swapLoop_flatten nz.toNat _ h2 m oracle _ (st0_inv R nz.toNat) st' hsl
      · rw [hst]
    have h5 : List.Perm (ts.flatten ++ rs)
        (((sortPlayers R).take ((R.length / nz.toNat) * nz.toNat)) ++
          ((sortPlayers R).drop ((R.length / nz.toNat) * nz.toNat))) := by
      have hfl2 := hflat.trans (faseGreedy_flatten R nz.toNat)
      rw [hts, hrs, faseGreedy_reservas]
      exact hfl2.append_right _
    rw [List.take_append_drop] at h5
    exact h5.trans (sortPlayers_perm R)

/-- C1 (code bug, conservation otherwise intact): with the three-player
roster, team size 2 (a single team) and the default 2000 iterations, the
call raises `ValueError` inside `random.sample(range(1), 2)` instead of
returning a partition; and on every input on which the function does
return, the concatenation of all teams and the reserves is a
permutation of the input roster, so no player is created, dropped or
duplicated. -/
theorem conservation_and_single_team_raise :
    (balancear [⟨"P0", some 100⟩, ⟨"P1", some 105⟩, ⟨"P2", some 110⟩] 2 2000
        (fun _ => ⟨0, 0, 0, 0⟩) = .error .valueError) ∧
    (∀ (R : List Player) (nz : ℤ) (m : ℕ) (oracle : ℕ → Choice)
        (ts : List (List Player)) (rs : List Player),
      balancear R nz m oracle = .ok (ts, rs) → List.Perm (ts.flatten ++ rs) R) :=
  ⟨by decide, fun R nz m oracle ts rs hok => balancear_conserves R nz m oracle ts rs hok⟩

/-- C1 witness: instantiation of the conservation part at a returning
call. -/
theorem conservation_and_single_team_raise_witness :
    (balancear [⟨"P0", some 100⟩, ⟨"P1", some 105⟩, ⟨"P2", some 110⟩] 2 0
        (fun _ => ⟨0, 0, 0, 0⟩) =
      .ok ([[⟨"P2", some 110⟩, ⟨"P1", some 105⟩]], [⟨"P0", some 100⟩])) ∧
    List.Perm (([[⟨"P2", some 110⟩, ⟨"P1", some 105⟩]] : List (List Player)).flatten ++
        [⟨"P0", some 100⟩])
      [⟨"P0", some 100⟩, ⟨"P1", some 105⟩, ⟨"P2", some 110⟩] :=
  ⟨by decide, conservation_and_single_team_raise.2
    [⟨"P0", some 100⟩, ⟨"P1", some 105⟩, ⟨"P2", some 110⟩] 2 0 (fun _ => ⟨0, 0, 0, 0⟩)
    [[⟨"P2", some 110⟩, ⟨"P1", some 105⟩]] [⟨"P0", some 100⟩] (by decide)⟩

/-- C2 (code bug): the function does not return normally on every
well-formed input: with three players and team size 2 (`len(R) // k ==
1`) and `max_iterations = 1` the call raises `ValueError` from
`random.sample(range(1), 2)`; with `max_iterations = 0` the same roster
returns normally, showing the failure comes from the swap loop. -/
theorem balancear_single_team_iteration_raises :
    balancear [⟨"A", some 1⟩, ⟨"B", some 2⟩, ⟨"C", some 3⟩] 2 1 (fun _ => ⟨0, 0, 0, 0⟩) =
      .error .valueError ∧
    balancear [⟨"A", some 1⟩, ⟨"B", some 2⟩, ⟨"C", some 3⟩] 2 0 (fun _ => ⟨0, 0, 0, 0⟩) =
      .ok ([[⟨"C", some 3⟩, ⟨"B", some 2⟩]], [⟨"A", some 1⟩]) :=
  ⟨by decide, by decide⟩

/-- C3 (code bug): with `k ≤ len(R) < 2k` (one team) the source does not
skip the swap phase: at `len(R) = k = 2` and the default 2000 iterations
it raises `ValueError` inside `random.sample(range(1), 2)`; only with
`max_iterations = 0` does it return the single team of the `k`
highest-score players with the remaining players as reserves. -/
theorem single_team_not_skipped :
    balancear [⟨"u", some 4⟩, ⟨"v", some 9⟩] 2 2000 (fun _ => ⟨0, 0, 0, 0⟩) =
      .error .valueError ∧
    balancear [⟨"u", some 4⟩, ⟨"v", some 9⟩] 2 0 (fun _ => ⟨0, 0, 0, 0⟩) =
      .ok ([[⟨"v", some 9⟩, ⟨"u", some 4⟩]], []) :=
  ⟨by decide, by decide⟩

/-! ### Substituting the default score is equivalent to materializing it -/

/-- Replace a possibly-missing `"Score"` entry by its read value (the
Python default `0.0` when missing). -/
def fillScore (p : Player) : Player := ⟨p.gamertag, some (getScore p)⟩

/-- Filling scores of every member of every team. -/
def mapTeams (ts : List (List Player)) : List (List Player) := ts.map (List.map fillScore)

/-- State images under score filling. -/
def mapG (st : GreedyState) : GreedyState := ⟨mapTeams st.teams, st.sums⟩

def mapS (st : SwapState) : SwapState := ⟨mapTeams st.teams, st.sums, st.bestVar⟩

lemma getScore_fillScore (p : Player) : getScore (fillScore p) = getScore p := rfl

lemma sortPlayers_map_fill (l : List Player) :
    sortPlayers (l.map fillScore) = (sortPlayers l).map fillScore :=
  (List.map_insertionSort scoreGE scoreGE fillScore l (fun _ _ _ _ => Iff.rfl)).symm

lemma getD_mapTeams (ts : List (List Player)) (i : ℕ) :
    (mapTeams ts).getD i [] = (ts.getD i []).map fillScore := by
  by_cases h : i < ts.length
  · rw [List.getD_eq_getElem _ _ (by simpa [mapTeams] using h), List.getD_eq_getElem _ _ h]
    simp [mapTeams]
  · push_neg at h
    rw [List.getD_eq_default _ _ (by simpa [mapTeams] using h), List.getD_eq_default _ _ h]
    simp

lemma candidatosOf_mapTeams (n num : ℕ) (ts : List (List Player)) :
    candidatosOf n num (mapTeams ts) = candidatosOf n num ts := by
  unfold candidatosOf
  refine List.filter_congr ?_
  intro i _
  rw [getD_mapTeams, List.length_map]

lemma greedyStep_map (n num : ℕ) (st : GreedyState) (p : Player) :
    greedyStep n num (mapG st) (fillScore p) = mapG (greedyStep n num st p) := by
  unfold greedyStep
  have hc : candidatosOf n num (mapG st).teams = candidatosOf n num st.teams := by
    show candidatosOf n num (mapTeams st.teams) = _
    exact candidatosOf_mapTeams n num st.teams
  have hs : (mapG st).sums = st.sums := rfl
  rw [hc, hs]
  cases hmin : pyMin (fun i => st.sums.getD i 0) (candidatosOf n num st.teams) with
  | none => rfl
  | some idx =>
    show (⟨(mapG st).teams.set idx ((mapG st).teams.getD idx [] ++ [fillScore p]),
        st.sums.set idx (st.sums.getD idx 0 + getScore (fillScore p))⟩ : GreedyState) =
      mapG ⟨st.teams.set idx (st.teams.getD idx [] ++ [p]),
        st.sums.set idx (st.sums.getD idx 0 + getScore p)⟩
    rw [getScore_fillScore]
    show (⟨(mapTeams st.teams).set idx ((mapTeams st.teams).getD idx [] ++ [fillScore p]),
        _⟩ : GreedyState) = _
    rw [getD_mapTeams]
    unfold mapG mapTeams
    dsimp only
    rw [show List.map fillScore (st.teams.getD idx []) ++ [fillScore p] =
        List.map fillScore (st.teams.getD idx [] ++ [p]) by simp]
    rw [← List.map_set]

lemma foldl_greedy_map (n num : ℕ) :
    ∀ (l : List Player) (st : GreedyState),
      (l.map fillScore).foldl (greedyStep n num) (mapG st) =
        mapG (l.foldl (greedyStep n num) st) := by
  intro l
  induction l with
  | nil => intro st; rfl
  | cons p l ih =>
    intro st
    simp only [List.map_cons, List.foldl_cons]
    rw [greedyStep_map, ih]

lemma swapIter_map (num : ℕ) (st : SwapState) (c : Choice) :
    swapIter num (mapS st) c = mapS (swapIter num st c) := by
  unfold swapIter
  dsimp only
  rw [show (mapS st).teams = mapTeams st.teams from rfl,
    show (mapS st).sums = st.sums from rfl,
    show (mapS st).bestVar = st.bestVar from rfl,
    getD_mapTeams, getD_mapTeams, List.length_map, List.length_map]
  by_cases hg : (st.teams.getD (samplePair num c).1 []).length = 0 ∨
      (st.teams.getD (samplePair num c).2 []).length = 0
  · rw [if_pos hg, if_pos hg]
  · rw [if_neg hg, if_neg hg]
    push_neg at hg
    obtain ⟨hta0, htb0⟩ := hg
    have hialt : c.cia % (st.teams.getD (samplePair num c).1 []).length <
        (st.teams.getD (samplePair num c).1 []).length := Nat.mod_lt _ (by omega)
    have hiblt : c.cib % (st.teams.getD (samplePair num c).2 []).length <
        (st.teams.getD (samplePair num c).2 []).length := Nat.mod_lt _ (by omega)
    have hpa : ((st.teams.getD (samplePair num c).1 []).map fillScore).getD
        (c.cia % (st.teams.getD (samplePair num c).1 []).length) ⟨"", none⟩ =
        fillScore ((st.teams.getD (samplePair num c).1 []).getD
          (c.cia % (st.teams.getD (samplePair num c).1 []).length) ⟨"", none⟩) := by
      rw [List.getD_eq_getElem _ _ (by simpa using hialt), List.getD_eq_getElem _ _ hialt]
      simp
    have hpb : ((st.teams.getD (samplePair num c).2 []).map fillScore).getD
        (c.cib % (st.teams.getD (samplePair num c).2 []).length) ⟨"", none⟩ =
        fillScore ((st.teams.getD (samplePair num c).2 []).getD
          (c.cib % (st.teams.getD (samplePair num c).2 []).length) ⟨"", none⟩) := by
      rw [List.getD_eq_getElem _ _ (by simpa using hiblt), List.getD_eq_getElem _ _ hiblt]
      simp
    rw [hpa, hpb, getScore_fillScore, getScore_fillScore]
    split_ifs with hvar
    · unfold mapS mapTeams
      dsimp only
      simp only [← List.map_set]
    · rfl

lemma faseGreedy_map (l : List Player) (n : ℕ) :
    faseGreedy (l.map fillScore) n =
      (mapG (faseGreedy l n).1, (faseGreedy l n).2.map fillScore) := by
  rw [faseGreedy_eq, faseGreedy_eq, List.length_map, sortPlayers_map_fill,
    ← List.map_take, ← List.map_drop]
  have hinit : mapG ⟨List.replicate (l.length / n) [], List.replicate (l.length / n) 0⟩ =
      (⟨List.replicate (l.length / n) [], List.replicate (l.length / n) 0⟩ : GreedyState) := by
    unfold mapG mapTeams
    simp [List.map_replicate]
  have hfold := foldl_greedy_map n (l.length / n)
    ((sortPlayers l).take ((l.length / n) * n))
    ⟨List.replicate (l.length / n) [], List.replicate (l.length / n) 0⟩
  rw [hinit] at hfold
  rw [hfold]

lemma swapLoop_map (num : ℕ) :
    ∀ (m : ℕ) (oracle : ℕ → Choice) (st : SwapState),
      swapLoop num oracle m (mapS st) = (swapLoop num oracle m st).map mapS := by
  intro m
  induction m with
  | zero => intro oracle st; rfl
  | succ m ih =>
    intro oracle st
    unfold swapLoop
    by_cases hn : num < 2
    · rw [if_pos hn, if_pos hn]
      rfl
    · rw [if_neg hn, if_neg hn, swapIter_map, ih]

lemma balancearPos_map (l : List Player) (n m : ℕ) (oracle : ℕ → Choice) :
    balancearPos (l.map fillScore) n m oracle =
      (balancearPos l n m oracle).map
        (fun pr => (mapTeams pr.1, pr.2.map fillScore)) := by
  unfold balancearPos
  dsimp only
  rw [List.length_map, faseGreedy_map]
  rw [show (mapG (faseGreedy l n).1).teams = mapTeams (faseGreedy l n).1.teams from rfl,
    show (mapG (faseGreedy l n).1).sums = (faseGreedy l n).1.sums from rfl]
  have hst0 : SwapState.mk (mapTeams (faseGreedy l n).1.teams) (faseGreedy l n).1.sums
        (pvariance (faseGreedy l n).1.sums) =
      mapS (SwapState.mk (faseGreedy l n).1.teams (faseGreedy l n).1.sums
        (pvariance (faseGreedy l n).1.sums)) := rfl
  rw [hst0, swapLoop_map]
  cases hsl : swapLoop (l.length / n) oracle m
      { teams := (faseGreedy l n).1.teams
        sums := (faseGreedy l n).1.sums
        bestVar := pvariance (faseGreedy l n).1.sums } with
  | error e => rfl
  | ok st' => rfl

lemma balancear_map (l : List Player) (nz : ℤ) (m : ℕ) (oracle : ℕ → Choice) :
    balancear (l.map fillScore) nz m oracle =
      (balancear l nz m oracle).map (fun pr => (mapTeams pr.1, pr.2.map fillScore)) := by
  unfold balancear
  rw [List.length_map]
  by_cases h0 : nz = 0
  · rw [if_pos h0, if_pos h0]
    rfl
  · rw [if_neg h0, if_neg h0]
    by_cases hfd : Int.fdiv (l.length : ℤ) nz ≤ 0
    · rw [if_pos hfd, if_pos hfd]
      simp [Except.map, mapTeams]
    · rw [if_neg hfd, if_neg hfd]
      exact balancearPos_map l nz.toNat m oracle

/-- C9 (code bug): reading a missing `"Score"` as `0.0` makes the run on
a roster with missing scores agree exactly — in sorting, greedy sums,
swap arithmetic, and result (or exception) — with the run on the same
roster with those scores materialized as `0.0` (`fillScore` maps a
score-less record to the same record with score `0.0` and leaves scored
records unchanged up to materialization).  The claim's "raises no error"
is still false on the code: three score-less records with team size 2
raise `ValueError` from the unguarded single-team swap loop, as the
first conjunct evaluates. -/
theorem missing_score_equiv_zero_fill :
    (balancear [⟨"m1", none⟩, ⟨"m2", some 5⟩, ⟨"m3", none⟩] 2 2000 (fun _ => ⟨0, 0, 0, 0⟩) =
      .error .valueError) ∧
    (∀ (R : List Player) (nz : ℤ) (m : ℕ) (oracle : ℕ → Choice),
      balancear (R.map fillScore) nz m oracle =
        (balancear R nz m oracle).map (fun pr => (mapTeams pr.1, pr.2.map fillScore))) ∧
    (∀ g : String, fillScore ⟨g, none⟩ = ⟨g, some 0⟩) :=
  ⟨by decide, fun R nz m oracle => balancear_map R nz m oracle, fun _ => rfl⟩
